import Mathlib

/-!
Verification of the PetriNet_Python reachability and analysis engine.

This file shallowly embeds the core of the repository:
* `pnml_parser.py` — the `PetriNet` class: builders (`add_place`,
  `add_transition`, `add_arc`, `set_initial_marking`), the firing rule
  (`is_enabled`, `fire`) and the explicit breadth-first exploration
  (`get_reachable_markings`);
* `bdd.py` — `symbolic_reachability_bdd`: boolean functions are modelled
  semantically, a function over the per-place current-state variables is the
  finite set of its satisfying assignments (a `Finset` of markings), and the
  transition relation a finite set of pairs of markings; the fixpoint loop is
  embedded with explicit fuel;
* `deadlock_detection.py` — `is_deadlock_explicit`, `find_deadlock_explicit`,
  `find_deadlock_ilp_bdd`, `find_deadlock_ilp_bdd_compact`, `detect_deadlock`;
* `optimization.py` — `optimize_reachable_markings_bruteforce` and
  `optimize_reachable_markings_ilp`.

A marking is a finite set of place identifiers (`frozenset` of strings in the
source).  The Python `while` loops are embedded as fuel-indexed recursions;
the fuel bounds are chosen so that the loops provably run to completion
(see the termination theorems below).
-/

/-- A marking: an immutable set of currently marked places
(`FrozenSet[str]` in the source). -/
abbrev Marking := Finset String

/-- The `PetriNet` class of `pnml_parser.py`: places, transitions, arcs,
an initial marking, and the preset/postset maps kept in sync with the arcs
by the builder methods.  The Python dictionaries `preset`/`postset` are
embedded as total functions that are `∅` outside their key set. -/
structure PetriNet where
  name : String
  places : Finset String
  transitions : Finset String
  arcs : List (String × String)
  initial_marking : Finset String
  preset : String → Finset String
  postset : String → Finset String

namespace PetriNet

/-- `PetriNet.__init__`: the freshly constructed, empty net. -/
def empty : PetriNet :=
  { name := ""
    places := ∅
    transitions := ∅
    arcs := []
    initial_marking := ∅
    preset := fun _ => ∅
    postset := fun _ => ∅ }

/-- `PetriNet.add_place`: raises on a duplicate identifier, otherwise adds
the place and initialises its preset/postset entries to the empty set. -/
def add_place (pn : PetriNet) (pid : String) : Except String PetriNet :=
  if pid ∈ pn.places ∨ pid ∈ pn.transitions then
    .error ("Duplicate node ID: " ++ pid)
  else
    .ok { pn with
      places := insert pid pn.places
      preset := fun q => if q = pid then ∅ else pn.preset q
      postset := fun q => if q = pid then ∅ else pn.postset q }

/-- `PetriNet.add_transition`: raises on a duplicate identifier, otherwise
adds the transition and initialises its preset/postset entries. -/
def add_transition (pn : PetriNet) (tid : String) : Except String PetriNet :=
  if tid ∈ pn.transitions ∨ tid ∈ pn.places then
    .error ("Duplicate node ID: " ++ tid)
  else
    .ok { pn with
      transitions := insert tid pn.transitions
      preset := fun q => if q = tid then ∅ else pn.preset q
      postset := fun q => if q = tid then ∅ else pn.postset q }

/-- `PetriNet.add_arc`: rejects dangling endpoints and place–place or
transition–transition arcs, then appends the arc and updates the derived
postset of the source and preset of the target. -/
def add_arc (pn : PetriNet) (src tgt : String) : Except String PetriNet :=
  if src ∉ pn.places ∧ src ∉ pn.transitions then
    .error ("Arc source '" ++ src ++ "' not defined")
  else if tgt ∉ pn.places ∧ tgt ∉ pn.transitions then
    .error ("Arc target '" ++ tgt ++ "' not defined")
  else if (src ∈ pn.places ∧ tgt ∈ pn.places) ∨
      (src ∈ pn.transitions ∧ tgt ∈ pn.transitions) then
    .error ("Invalid arc type: " ++ src ++ " -> " ++ tgt)
  else
    .ok { pn with
      arcs := pn.arcs ++ [(src, tgt)]
      postset := fun q => if q = src then insert tgt (pn.postset q) else pn.postset q
      preset := fun q => if q = tgt then insert src (pn.preset q) else pn.preset q }

/-- `PetriNet.set_initial_marking`: a token count above one is clamped to one
(with a printed warning, not modelled); a positive count marks the place. -/
def set_initial_marking (pn : PetriNet) (place_id : String) (tokens : Nat) : PetriNet :=
  if tokens > 0 then
    { pn with initial_marking := insert place_id pn.initial_marking }
  else pn

/-- `PetriNet.is_enabled`: every place of the transition's preset is marked. -/
def is_enabled (pn : PetriNet) (transition : String) (marking : Marking) : Bool :=
  decide (∀ p ∈ pn.preset transition, p ∈ marking)

/-- The marking produced by firing: `(marking - preset) | postset`
(the set-level body of `PetriNet.fire`, after its enabledness guard). -/
def fireSet (pn : PetriNet) (transition : String) (marking : Marking) : Marking :=
  (marking \ pn.preset transition) ∪ pn.postset transition

/-- `PetriNet.fire`: raises `RuntimeError` when the transition is not
enabled, otherwise returns `(marking - preset) | postset`. -/
def fire (pn : PetriNet) (transition : String) (marking : Marking) :
    Except String Marking :=
  if pn.is_enabled transition marking then
    .ok (pn.fireSet transition marking)
  else
    .error ("Transition " ++ transition ++ " is not enabled!")

end PetriNet

/-- Lexicographic comparison of character lists by Unicode code point
(the order Python's `sorted` uses on strings), as an executable boolean. -/
def charsLe : List Char → List Char → Bool
  | [], _ => true
  | _ :: _, [] => false
  | c :: cs, d :: ds =>
    if c = d then charsLe cs ds
    else decide (c.toNat < d.toNat)

/-- The lexicographic order on strings used by Python's `sorted`. -/
def strLe (a b : String) : Prop :=
  charsLe a.data b.data = true

instance : DecidableRel strLe :=
  fun a b => inferInstanceAs (Decidable (charsLe a.data b.data = true))

theorem Char.toNat_inj {c d : Char} (h : c.toNat = d.toNat) : c = d :=
  Char.eq_of_val_eq (UInt32.eq_of_toBitVec_eq (BitVec.eq_of_toNat_eq h))

theorem charsLe_total : ∀ l₁ l₂ : List Char, charsLe l₁ l₂ = true ∨ charsLe l₂ l₁ = true
  | [], _ => by left; rfl
  | _ :: _, [] => by right; rfl
  | c :: cs, d :: ds => by
    by_cases hcd : c = d
    · subst hcd
      simpa [charsLe] using charsLe_total cs ds
    · have hne : c.toNat ≠ d.toNat := fun h => hcd (Char.toNat_inj h)
      rcases Nat.lt_or_ge c.toNat d.toNat with h | h
      · left; simp [charsLe, hcd, h]
      · right
        have : d.toNat < c.toNat := lt_of_le_of_ne h (Ne.symm hne)
        simp [charsLe, Ne.symm hcd, this]

theorem charsLe_trans : ∀ l₁ l₂ l₃ : List Char,
    charsLe l₁ l₂ = true → charsLe l₂ l₃ = true → charsLe l₁ l₃ = true
  | [], _, _ => by intro _ _; rfl
  | _ :: _, [], _ => by intro h; exact absurd h (by simp [charsLe])
  | _ :: _, _ :: _, [] => by intro _ h; exact absurd h (by simp [charsLe])
  | c :: cs, d :: ds, e :: es => by
    intro h₁ h₂
    by_cases hcd : c = d <;> by_cases hde : d = e
    · subst hcd; subst hde
      simp only [charsLe, if_pos rfl] at h₁ h₂ ⊢
      exact charsLe_trans cs ds es h₁ h₂
    · subst hcd
      simpa [charsLe, hde] using h₂
    · subst hde
      simpa [charsLe, hcd] using h₁
    · simp only [charsLe, if_neg hcd, decide_eq_true_eq] at h₁
      simp only [charsLe, if_neg hde, decide_eq_true_eq] at h₂
      have hce : c.toNat < e.toNat := lt_trans h₁ h₂
      have : c ≠ e := fun h => by subst h; exact absurd (lt_trans h₁ h₂) (lt_irrefl _)
      simp [charsLe, this, hce]

theorem charsLe_antisymm : ∀ l₁ l₂ : List Char,
    charsLe l₁ l₂ = true → charsLe l₂ l₁ = true → l₁ = l₂
  | [], [] => by intro _ _; rfl
  | [], _ :: _ => by intro _ h; exact absurd h (by simp [charsLe])
  | _ :: _, [] => by intro h _; exact absurd h (by simp [charsLe])
  | c :: cs, d :: ds => by
    intro h₁ h₂
    by_cases hcd : c = d
    · subst hcd
      simp only [charsLe, if_pos rfl] at h₁ h₂
      rw [charsLe_antisymm cs ds h₁ h₂]
    · simp only [charsLe, if_neg hcd, decide_eq_true_eq] at h₁
      simp only [charsLe, if_neg (Ne.symm hcd), decide_eq_true_eq] at h₂
      exact absurd (lt_trans h₁ h₂) (lt_irrefl _)

instance : IsTotal String strLe := ⟨fun a b => charsLe_total a.data b.data⟩

instance : IsTrans String strLe := ⟨fun a b c => charsLe_trans a.data b.data c.data⟩

instance : IsAntisymm String strLe :=
  ⟨fun a b h₁ h₂ => congrArg String.mk (charsLe_antisymm a.data b.data h₁ h₂)⟩

/-- Python's `sorted(...)` on a set of identifiers: the elements listed in
lexicographic sorted order.  Implemented by insertion sort, lifted to the
multiset underlying a `Finset` (well defined because the sorted list is
invariant under permutation of the input). -/
def sortIds (m : Multiset String) : List String :=
  Quot.liftOn m (fun l => l.insertionSort strLe) fun l₁ l₂ h =>
    List.eq_of_perm_of_sorted
      ((List.perm_insertionSort _ l₁).trans
        (h.trans (List.perm_insertionSort _ l₂).symm))
      (List.sorted_insertionSort _ l₁) (List.sorted_insertionSort _ l₂)

namespace PetriNet

/-- `sorted(self.transitions)`: the transitions in sorted identifier order,
fixed for reproducible exploration. -/
def sortedTransitions (pn : PetriNet) : List String :=
  sortIds pn.transitions.val

/-- The inner `for t in sorted(self.transitions)` loop of
`get_reachable_markings`, processing one dequeued marking `m`: each enabled
transition is fired, and an unseen successor is added to the visited set and
appended to the queue and to the result sequence. -/
def exploreStep (pn : PetriNet) (m : Marking) :
    List String → Finset Marking → List Marking → List Marking →
    Finset Marking × List Marking × List Marking
  | [], visited, queue, result => (visited, queue, result)
  | t :: ts, visited, queue, result =>
    if pn.is_enabled t m then
      let next_m := pn.fireSet t m
      if next_m ∈ visited then
        exploreStep pn m ts visited queue result
      else
        exploreStep pn m ts (insert next_m visited) (queue ++ [next_m])
          (result ++ [next_m])
    else
      exploreStep pn m ts visited queue result

/-- The `while queue:` loop of `get_reachable_markings`, with explicit fuel.
One unit of fuel pays for one dequeue; the loop exits when the queue is
empty (the fuel-exhausted branch is proved unreachable for the fuel used by
`get_reachable_markings`). -/
def bfsAux (pn : PetriNet) :
    Nat → List Marking → Finset Marking → List Marking →
    Finset Marking × List Marking × List Marking
  | _, [], visited, result => (visited, [], result)
  | 0, queue, visited, result => (visited, queue, result)
  | fuel + 1, m :: queue, visited, result =>
    let s := exploreStep pn m pn.sortedTransitions visited queue result
    bfsAux pn fuel s.2.1 s.1 s.2.2

/-- Every marking ever enqueued by the search is a subset of this set:
the initial marking together with every postset of a transition. -/
def boundSet (pn : PetriNet) : Finset String :=
  pn.initial_marking ∪ pn.transitions.biUnion pn.postset

/-- Fuel sufficient for the breadth-first loop to drain its queue:
the number of subsets of `boundSet`, an upper bound on the number of
markings that can ever be enqueued. -/
def bfsFuel (pn : PetriNet) : Nat :=
  2 ^ pn.boundSet.card

/-- `PetriNet.get_reachable_markings` at a given fuel: returns `[]` for a
net without places, else runs the breadth-first search from the initial
marking with `visited = {initial}`, `queue = [initial]`,
`result = [initial]`. -/
def get_reachable_markings_fuel (pn : PetriNet) (fuel : Nat) : List Marking :=
  if pn.places = ∅ then []
  else
    let initial := pn.initial_marking
    (bfsAux pn fuel [initial] {initial} [initial]).2.2

/-- `PetriNet.get_reachable_markings`: the explicit breadth-first
exploration, run with enough fuel for its queue to drain. -/
def get_reachable_markings (pn : PetriNet) : List Marking :=
  pn.get_reachable_markings_fuel pn.bfsFuel

end PetriNet

/-- Reachability by a firing sequence: the initial marking is reachable, and
firing any enabled transition of the net from a reachable marking yields a
reachable marking. -/
inductive Reaches (pn : PetriNet) : Marking → Prop
  | init : Reaches pn pn.initial_marking
  | step {m : Marking} (t : String) :
      Reaches pn m → t ∈ pn.transitions → pn.is_enabled t m = true →
      Reaches pn (pn.fireSet t m)

/-- The structural invariants of §3 of the specification that the parser
guarantees for the nets handed to the engine: preset and postset of every
transition consist of places, and the initial marking marks places. -/
def WF (pn : PetriNet) : Prop :=
  (∀ t ∈ pn.transitions, pn.preset t ⊆ pn.places) ∧
  (∀ t ∈ pn.transitions, pn.postset t ⊆ pn.places) ∧
  pn.initial_marking ⊆ pn.places

instance (pn : PetriNet) : Decidable (WF pn) := by
  unfold WF; infer_instance

/-- Nets whose places, transitions and arcs were built through the
`add_place` / `add_transition` / `add_arc` / `set_initial_marking` methods
(each returning without raising). -/
inductive Built : PetriNet → Prop
  | empty : Built PetriNet.empty
  | place (pn pn' : PetriNet) (p : String) :
      Built pn → pn.add_place p = .ok pn' → Built pn'
  | transition (pn pn' : PetriNet) (t : String) :
      Built pn → pn.add_transition t = .ok pn' → Built pn'
  | arc (pn pn' : PetriNet) (src tgt : String) :
      Built pn → pn.add_arc src tgt = .ok pn' → Built pn'
  | init (pn : PetriNet) (p : String) (k : Nat) :
      Built pn → Built (pn.set_initial_marking p k)

/-! ## Symbolic explorer (`bdd.py`, `symbolic_reachability_bdd`)

Boolean functions over the current-state variables `x_0 … x_{n-1}` (one per
place, in sorted place order) are modelled semantically by the finite set of
their satisfying assignments: an assignment maps each place to a truth
value, i.e. it is a subset of the places.  A function over current and next
variables is a finite set of pairs of assignments.  The BDD operations used
by the source (`apply` and/or/not, `exist` over the current variables
followed by `let` renaming next to current, comparison with `false`) are the
corresponding exact set operations.  `bdd.count(u)` with `nvars` omitted
counts the satisfying assignments of `u` over the variables in the support
of `u` only — the variables the function depends on — so a place the
reachable set is insensitive to does not contribute a factor of two. -/

namespace PetriNet

/-- `sorted(petri_net.places)`: the places in sorted order, fixing the
variable index of each place. -/
def sortedPlaces (pn : PetriNet) : List String :=
  sortIds pn.places.val

/-- The initial-set function `R0`: the conjunction over all places of
(`x_i` if the place is initially marked else `~x_i`); its sole satisfying
assignment marks exactly the initially marked places. -/
def symInit (pn : PetriNet) : Finset Marking :=
  {pn.places.filter (fun p => p ∈ pn.initial_marking)}

/-- The per-transition relation `T_t(X, Y)` of `symbolic_reachability_bdd`:
the guard (all preset variables true) conjoined with, for every place, the
next-state constraint chosen by the `if in_pre and in_post / elif in_pre /
elif in_post / else` chain: unchanged, consumed (`~y`), produced (`y`),
unchanged.  Satisfying assignments are pairs of subsets of the places. -/
def symT (pn : PetriNet) (t : String) : Finset (Marking × Marking) :=
  (pn.places.powerset ×ˢ pn.places.powerset).filter fun XY =>
    (∀ p ∈ pn.preset t, p ∈ XY.1) ∧
    ∀ p ∈ pn.places,
      (p ∈ pn.preset t ∧ p ∈ pn.postset t → (p ∈ XY.1 ↔ p ∈ XY.2)) ∧
      (p ∈ pn.preset t ∧ p ∉ pn.postset t → p ∉ XY.2) ∧
      (p ∉ pn.preset t ∧ p ∈ pn.postset t → p ∈ XY.2) ∧
      (p ∉ pn.preset t ∧ p ∉ pn.postset t → (p ∈ XY.1 ↔ p ∈ XY.2))

/-- The global transition relation `T(X, Y)`: the disjunction of every
`T_t`, accumulated pairwise starting from `bdd.false`. -/
def symTGlobal (pn : PetriNet) : Finset (Marking × Marking) :=
  pn.sortedTransitions.foldl (fun acc t => acc ∪ pn.symT t) ∅

/-- One image computation of the fixpoint loop:
`∃X. (R(X) ∧ T(X, Y))`, with `Y` renamed back to `X`. -/
def symImage (T : Finset (Marking × Marking)) (R : Finset Marking) :
    Finset Marking :=
  (T.filter (fun XY => XY.1 ∈ R)).image Prod.snd

/-- The `while True:` fixpoint loop of `symbolic_reachability_bdd`, with
explicit fuel: compute the image of `R`, subtract `R`; if nothing is new
stop, else union the new states into `R` and repeat. -/
def symFixAux (T : Finset (Marking × Marking)) :
    Nat → Finset Marking → Finset Marking
  | 0, R => R
  | fuel + 1, R =>
    let image := symImage T R
    let newStates := image \ R
    if newStates = ∅ then R
    else symFixAux T fuel (R ∪ newStates)

/-- Fuel sufficient for the fixpoint loop to reach its fixpoint: the number
of subsets of the places bounds how often `R` can strictly grow, plus one
final iteration that finds nothing new. -/
def symFuel (pn : PetriNet) : Nat :=
  2 ^ pn.places.card + 1

/-- The reachable-set function `R` computed by `symbolic_reachability_bdd`:
`bdd.false` (the empty set) for a net without places, else the least
fixpoint of the image operation above `R0`. -/
def symbolicR (pn : PetriNet) : Finset Marking :=
  if pn.places = ∅ then ∅
  else symFixAux pn.symTGlobal pn.symFuel pn.symInit

/-- An assignment toggled at the place variable `p`: the assignment that
differs from `X` exactly at `p`. -/
def toggleVar (p : String) (X : Marking) : Marking :=
  if p ∈ X then X.erase p else insert p X

/-- The support of the reachable-set function `R`: the place variables the
function actually depends on.  A reduced ordered BDD is canonical, so a
variable occurs in the diagram for `R` exactly when toggling it changes
membership for some assignment. -/
def symSupport (pn : PetriNet) : Finset String :=
  pn.places.filter (fun p =>
    ∃ X ∈ pn.places.powerset, X ∈ pn.symbolicR ∧
      toggleVar p X ∉ pn.symbolicR)

/-- The count returned by `symbolic_reachability_bdd`: `0` for a net without
places, else `bdd.count(R)`.  `dd`'s `count` with `nvars` omitted counts the
satisfying assignments of `R` over the variables in the support of `R`
(not over all declared variables), i.e. the number of distinct restrictions
of the satisfying assignments to the support. -/
def symCount (pn : PetriNet) : Nat :=
  (pn.symbolicR.image (fun X => X ∩ pn.symSupport)).card

end PetriNet

/-! ## Deadlock finder (`deadlock_detection.py`) -/

/-- `is_deadlock_explicit`: no transition of the net is enabled in the
marking. -/
def is_deadlock_explicit (pn : PetriNet) (marking : Marking) : Bool :=
  decide (∀ t ∈ pn.transitions, ¬ pn.is_enabled t marking = true)

/-- `find_deadlock_explicit`: scan the explicit breadth-first enumeration
and return the first deadlock, or `none`. -/
def find_deadlock_explicit (pn : PetriNet) : Option Marking :=
  pn.get_reachable_markings.find? (fun m => is_deadlock_explicit pn m)

/-- `bdd_manager.pick_iter(reachable_bdd, care_vars=x_vars)`: the satisfying
assignments of the reachable-set function over the per-place variables, as
markings.  The iteration order of `pick_iter` is unspecified; it is fixed
here as the sublist order of the sorted place list. -/
def satAssignments (pn : PetriNet) (R : Finset Marking) : List Marking :=
  (pn.sortedPlaces.sublists.map List.toFinset).filter (fun A => A ∈ R)

/-- `find_deadlock_ilp_bdd`: the integer program over binary place variables
`M[p]` whose constraints force `M` to equal exactly one enumerated
satisfying assignment of the reachable-set function (the one-hot indicator
block) and, for every transition with a non-empty preset, force at least one
preset place to be unmarked (`sum of preset variables <= |preset| - 1`);
transitions with an empty preset are skipped (`continue`).  The feasible
points are therefore exactly the enumerated assignments under which no
transition with a non-empty preset is enabled; the CBC solver returns one of
them (modelled as the first in enumeration order) or reports infeasibility
(`None`). -/
def find_deadlock_ilp_bdd (pn : PetriNet) (R : Finset Marking) :
    Option Marking :=
  if pn.places = ∅ then none
  else
    let sat := satAssignments pn R
    if sat = [] then none
    else sat.find? (fun A =>
      decide (∀ t ∈ pn.transitions, pn.preset t ≠ ∅ → ¬ pn.preset t ⊆ A))

/-- `find_deadlock_ilp_bdd_compact`: enumerate the satisfying assignments of
the reachable-set function, discard any assignment not in the explicit
reachable set, and return the first remaining marking in which no transition
is enabled. -/
def find_deadlock_ilp_bdd_compact (pn : PetriNet) (R : Finset Marking) :
    Option Marking :=
  let explicit_reachable := pn.get_reachable_markings.toFinset
  let sat := satAssignments pn R
  if sat = [] then none
  else sat.find? (fun A =>
    decide (A ∈ explicit_reachable) &&
      !(pn.sortedTransitions.any (fun t => pn.is_enabled t A)))

/-- The `method` argument of `detect_deadlock`. -/
inductive Method
  | explicit
  | bdd
  | bdd_compact

/-- `detect_deadlock`: dispatch on the method; the `bdd` and `bdd_compact`
methods first compute the symbolic reachable set.  (The wall-clock time also
returned by the source is not modelled.) -/
def detect_deadlock (pn : PetriNet) (method : Method) : Option Marking :=
  match method with
  | .explicit => find_deadlock_explicit pn
  | .bdd => find_deadlock_ilp_bdd pn pn.symbolicR
  | .bdd_compact => find_deadlock_ilp_bdd_compact pn pn.symbolicR

/-! ## Marking optimizer (`optimization.py`)

Weights are the total function behind `weights.get(p, 0)`; the value of a
marking is the sum of the weights of its marked places (`sum(c[p] for p in
marking)`, defined on the markings of a well-formed net, which consist of
places). -/

/-- The objective value of a marking. -/
def markingValue (w : String → Int) (m : Marking) : Int :=
  m.sum w

/-- One iteration of the bruteforce scan's loop: replace the best pair when
the current marking's value is strictly greater (`value > best_value`). -/
def bruteStep (w : String → Int) (acc : Option (Marking × Int)) (m : Marking) :
    Option (Marking × Int) :=
  match acc with
  | none => some (m, markingValue w m)
  | some (bm, bv) =>
    if bv < markingValue w m then some (m, markingValue w m)
    else some (bm, bv)

/-- `optimize_reachable_markings_bruteforce`: scan the reachable markings
once, keeping the first marking of strictly greatest value.  The initial
`best_value = float('-inf')` is modelled by an empty accumulator that any
first marking replaces; `(None, 0.0)` is returned when there are no
reachable markings.  (Computation time is not modelled.) -/
def optimize_reachable_markings_bruteforce (pn : PetriNet) (w : String → Int) :
    Option Marking × Int :=
  let reachable_markings := pn.get_reachable_markings
  if reachable_markings = [] then (none, 0)
  else
    match reachable_markings.foldl (bruteStep w) none with
    | none => (none, 0)
    | some (bm, bv) => (some bm, bv)

/-- `optimize_reachable_markings_ilp`: one binary indicator per reachable
marking, objective `sum(value_i * x_i)`, constraint `sum(x_i) == 1`.  The
optimum of this selection program is the greatest marking value, and the
solver returns an indicator attaining it (modelled as the first such
marking in enumeration order); `(None, 0.0)` is returned when there are no
reachable markings. -/
def optimize_reachable_markings_ilp (pn : PetriNet) (w : String → Int) :
    Option Marking × Int :=
  if pn.get_reachable_markings = [] then (none, 0)
  else
    match pn.get_reachable_markings.find? (fun m => markingValue w m =
        ((pn.get_reachable_markings.map (markingValue w)).maximum).unbot' 0) with
    | some m =>
      (some m,
        ((pn.get_reachable_markings.map (markingValue w)).maximum).unbot' 0)
    | none => (none, 0)

/-! ## Supporting lemmas -/

theorem mem_sortIds {m : Multiset String} {x : String} :
    x ∈ sortIds m ↔ x ∈ m := by
  induction m using Quot.inductionOn with
  | h l => exact (List.perm_insertionSort strLe l).mem_iff

theorem sortIds_nodup (s : Finset String) : (sortIds s.val).Nodup := by
  obtain ⟨m, hm⟩ := s
  induction m using Quot.inductionOn with
  | h l => exact ((List.perm_insertionSort strLe l).nodup_iff).mpr hm

namespace PetriNet

variable {pn : PetriNet}

theorem mem_sortedTransitions {t : String} :
    t ∈ pn.sortedTransitions ↔ t ∈ pn.transitions :=
  mem_sortIds

theorem is_enabled_iff {t : String} {m : Marking} :
    pn.is_enabled t m = true ↔ pn.preset t ⊆ m := by
  simp [is_enabled, Finset.subset_iff]

theorem fireSet_subset {t : String} {m : Marking} {U : Finset String}
    (hm : m ⊆ U) (hpost : pn.postset t ⊆ U) : pn.fireSet t m ⊆ U :=
  Finset.union_subset ((Finset.sdiff_subset).trans hm) hpost

theorem bfsAux_nil (fuel : Nat) (v : Finset Marking) (r : List Marking) :
    bfsAux pn fuel [] v r = (v, [], r) := by
  cases fuel <;> rfl

theorem bfsAux_cons (fuel : Nat) (m : Marking) (q : List Marking)
    (v : Finset Marking) (r : List Marking) :
    bfsAux pn (fuel + 1) (m :: q) v r =
      bfsAux pn fuel (exploreStep pn m pn.sortedTransitions v q r).2.1
        (exploreStep pn m pn.sortedTransitions v q r).1
        (exploreStep pn m pn.sortedTransitions v q r).2.2 := rfl

/-- What one pass of the inner transition loop does: it appends to the
queue and to the result one list `δ` of pairwise distinct, previously
unvisited successors of `m`, inserts exactly those into the visited set,
and afterwards every enabled successor of `m` (for a transition of the
processed list) is visited. -/
theorem exploreStep_spec (pn : PetriNet) (m : Marking) :
    ∀ (ts : List String) (v : Finset Marking) (q r : List Marking),
    ∃ δ : List Marking,
      exploreStep pn m ts v q r = (v ∪ δ.toFinset, q ++ δ, r ++ δ) ∧
      δ.Nodup ∧
      (∀ x ∈ δ, x ∉ v) ∧
      (∀ x ∈ δ, ∃ t ∈ ts, pn.is_enabled t m = true ∧ x = pn.fireSet t m) ∧
      (∀ t ∈ ts, pn.is_enabled t m = true → pn.fireSet t m ∈ v ∪ δ.toFinset) := by
  intro ts
  induction ts with
  | nil =>
    intro v q r
    exact ⟨[], by simp [exploreStep], by simp, by simp, by simp, by simp⟩
  | cons t ts ih =>
    intro v q r
    by_cases hen : pn.is_enabled t m = true
    · by_cases hmem : pn.fireSet t m ∈ v
      · obtain ⟨δ, h1, h2, h3, h4, h5⟩ := ih v q r
        refine ⟨δ, ?_, h2, h3, ?_, ?_⟩
        · simpa [exploreStep, hen, hmem] using h1
        · intro x hx
          obtain ⟨t', ht', h⟩ := h4 x hx
          exact ⟨t', List.mem_cons_of_mem _ ht', h⟩
        · intro t' ht' hent'
          rcases List.mem_cons.mp ht' with rfl | ht'
          · exact Finset.mem_union_left _ hmem
          · exact h5 t' ht' hent'
      · obtain ⟨δ, h1, h2, h3, h4, h5⟩ :=
          ih (insert (pn.fireSet t m) v) (q ++ [pn.fireSet t m])
            (r ++ [pn.fireSet t m])
        have hset : insert (pn.fireSet t m) v ∪ δ.toFinset =
            v ∪ (pn.fireSet t m :: δ).toFinset := by
          simp [List.toFinset_cons, Finset.union_insert]
        refine ⟨pn.fireSet t m :: δ, ?_, ?_, ?_, ?_, ?_⟩
        · have : exploreStep pn m (t :: ts) v q r =
              exploreStep pn m ts (insert (pn.fireSet t m) v)
                (q ++ [pn.fireSet t m]) (r ++ [pn.fireSet t m]) := by
            simp [exploreStep, hen, hmem]
          rw [this, h1, hset]
          simp
        · exact List.nodup_cons.mpr
            ⟨fun hx => (h3 _ hx) (Finset.mem_insert_self _ _), h2⟩
        · intro x hx
          rcases List.mem_cons.mp hx with rfl | hx
          · exact hmem
          · exact fun hxv => (h3 x hx) (Finset.mem_insert_of_mem hxv)
        · intro x hx
          rcases List.mem_cons.mp hx with rfl | hx
          · exact ⟨t, List.mem_cons_self t ts, hen, rfl⟩
          · obtain ⟨t', ht', h⟩ := h4 x hx
            exact ⟨t', List.mem_cons_of_mem _ ht', h⟩
        · intro t' ht' hent'
          rcases List.mem_cons.mp ht' with rfl | ht'
          · simp
          · rw [← hset]
            exact h5 t' ht' hent'
    · obtain ⟨δ, h1, h2, h3, h4, h5⟩ := ih v q r
      refine ⟨δ, ?_, h2, h3, ?_, ?_⟩
      · simpa [exploreStep, hen] using h1
      · intro x hx
        obtain ⟨t', ht', h⟩ := h4 x hx
        exact ⟨t', List.mem_cons_of_mem _ ht', h⟩
      · intro t' ht' hent'
        rcases List.mem_cons.mp ht' with rfl | ht'
        · exact absurd hent' hen
        · exact h5 t' ht' hent'

/-- The breadth-first loop, run with fuel at least
`|queue| + (2 ^ |U| − |visited|)` (where `U` bounds every marking that can
be enqueued), drains its queue.  Moreover the result does not change if the
fuel is increased, the visited set only grows and stays sound for
reachability, the result list enumerates the visited set without
duplicates, and the final visited set is closed under firing enabled
transitions. -/
theorem bfsAux_spec (pn : PetriNet) (U : Finset String)
    (hpost : ∀ t ∈ pn.transitions, pn.postset t ⊆ U) :
    ∀ (fuel : Nat) (q : List Marking) (v : Finset Marking) (r : List Marking),
    (∀ x ∈ v, x ⊆ U) →
    (∀ x ∈ q, x ∈ v) →
    r.Nodup →
    (∀ x, x ∈ r ↔ x ∈ v) →
    (∀ x ∈ v, Reaches pn x) →
    (∀ x ∈ v, x ∈ q ∨
      ∀ t ∈ pn.transitions, pn.is_enabled t x = true → pn.fireSet t x ∈ v) →
    q.length + (2 ^ U.card - v.card) ≤ fuel →
    ∃ v' r',
      bfsAux pn fuel q v r = (v', [], r') ∧
      (∀ k, bfsAux pn (fuel + k) q v r = (v', [], r')) ∧
      v ⊆ v' ∧
      r'.Nodup ∧
      (∀ x, x ∈ r' ↔ x ∈ v') ∧
      (∀ x ∈ v', Reaches pn x) ∧
      (∀ x ∈ v', ∀ t ∈ pn.transitions, pn.is_enabled t x = true →
        pn.fireSet t x ∈ v') := by
  intro fuel
  induction fuel with
  | zero =>
    intro q v r hU hq hnod hrv hsound hclosed hfuel
    have hq0 : q = [] := List.length_eq_zero.mp (by omega)
    subst hq0
    refine ⟨v, r, bfsAux_nil 0 v r, fun k => by simpa using bfsAux_nil k v r,
      Finset.Subset.refl v, hnod, hrv, hsound, ?_⟩
    intro x hx t ht hent
    rcases hclosed x hx with h | h
    · simp at h
    · exact h t ht hent
  | succ fuel ih =>
    intro q v r hU hq hnod hrv hsound hclosed hfuel
    cases q with
    | nil =>
      refine ⟨v, r, bfsAux_nil _ v r, fun k => bfsAux_nil _ v r,
        Finset.Subset.refl v, hnod, hrv, hsound, ?_⟩
      intro x hx t ht hent
      rcases hclosed x hx with h | h
      · simp at h
      · exact h t ht hent
    | cons m rest =>
      obtain ⟨δ, hstep, hδnod, hδnotv, hδorig, hδclosed⟩ :=
        exploreStep_spec pn m pn.sortedTransitions v rest r
      have hm_v : m ∈ v := hq m (List.mem_cons_self m rest)
      have hm_U : m ⊆ U := hU m hm_v
      have hm_R : Reaches pn m := hsound m hm_v
      have hδU : ∀ x ∈ δ, x ⊆ U := by
        intro x hx
        obtain ⟨t, ht, hen, rfl⟩ := hδorig x hx
        exact fireSet_subset hm_U (hpost t (mem_sortedTransitions.mp ht))
      have hδR : ∀ x ∈ δ, Reaches pn x := by
        intro x hx
        obtain ⟨t, ht, hen, rfl⟩ := hδorig x hx
        exact Reaches.step t hm_R (mem_sortedTransitions.mp ht) hen
      have hU₁ : ∀ x ∈ v ∪ δ.toFinset, x ⊆ U := by
        intro x hx
        rcases Finset.mem_union.mp hx with hx | hx
        · exact hU x hx
        · exact hδU x (List.mem_toFinset.mp hx)
      have hq₁ : ∀ x ∈ rest ++ δ, x ∈ v ∪ δ.toFinset := by
        intro x hx
        rcases List.mem_append.mp hx with hx | hx
        · exact Finset.mem_union_left _ (hq x (List.mem_cons_of_mem m hx))
        · exact Finset.mem_union_right _ (List.mem_toFinset.mpr hx)
      have hnod₁ : (r ++ δ).Nodup := by
        refine List.Nodup.append hnod hδnod ?_
        intro x hxr hxδ
        exact hδnotv x hxδ ((hrv x).mp hxr)
      have hrv₁ : ∀ x, x ∈ r ++ δ ↔ x ∈ v ∪ δ.toFinset := by
        intro x
        rw [List.mem_append, Finset.mem_union, hrv, List.mem_toFinset]
      have hsound₁ : ∀ x ∈ v ∪ δ.toFinset, Reaches pn x := by
        intro x hx
        rcases Finset.mem_union.mp hx with hx | hx
        · exact hsound x hx
        · exact hδR x (List.mem_toFinset.mp hx)
      have hclosed₁ : ∀ x ∈ v ∪ δ.toFinset, x ∈ rest ++ δ ∨
          ∀ t ∈ pn.transitions, pn.is_enabled t x = true →
            pn.fireSet t x ∈ v ∪ δ.toFinset := by
        intro x hx
        rcases Finset.mem_union.mp hx with hx | hx
        · rcases hclosed x hx with h | h
          · rcases List.mem_cons.mp h with rfl | h
            · right
              intro t ht hent
              exact hδclosed t (mem_sortedTransitions.mpr ht) hent
            · exact Or.inl (List.mem_append_left δ h)
          · right
            intro t ht hent
            exact Finset.mem_union_left _ (h t ht hent)
        · exact Or.inl (List.mem_append_right rest (List.mem_toFinset.mp hx))
      have hcardle : (v ∪ δ.toFinset).card ≤ 2 ^ U.card := by
        have hsub : v ∪ δ.toFinset ⊆ U.powerset := by
          intro x hx
          exact Finset.mem_powerset.mpr (hU₁ x hx)
        have := Finset.card_le_card hsub
        simpa [Finset.card_powerset] using this
      have hcardeq : (v ∪ δ.toFinset).card = v.card + δ.length := by
        have hdisj : Disjoint v δ.toFinset := by
          rw [Finset.disjoint_right]
          intro x hx
          exact hδnotv x (List.mem_toFinset.mp hx)
        rw [Finset.card_union_of_disjoint hdisj,
          List.toFinset_card_of_nodup hδnod]
      have hfuel₁ : (rest ++ δ).length +
          (2 ^ U.card - (v ∪ δ.toFinset).card) ≤ fuel := by
        have hlen : (m :: rest).length = rest.length + 1 := by simp
        rw [List.length_append, hcardeq]
        rw [hlen] at hfuel
        omega
      obtain ⟨v', r', hrun, hstab, hsub, hnod', hrv', hsound', hclosed'⟩ :=
        ih (rest ++ δ) (v ∪ δ.toFinset) (r ++ δ) hU₁ hq₁ hnod₁ hrv₁
          hsound₁ hclosed₁ hfuel₁
      refine ⟨v', r', ?_, ?_, Finset.Subset.trans Finset.subset_union_left hsub,
        hnod', hrv', hsound', hclosed'⟩
      · rw [bfsAux_cons, hstep]
        exact hrun
      · intro k
        have hk : fuel + 1 + k = (fuel + k) + 1 := by omega
        rw [hk, bfsAux_cons, hstep]
        exact hstab k

/-- The breadth-first search started from the initial marking (as
`get_reachable_markings` starts it): it drains its queue within `bfsFuel`
steps, stably in the fuel, and its final visited set is exactly the set of
reachable markings, enumerated without duplicates by the result list. -/
theorem bfs_main (pn : PetriNet) :
    ∃ v' r',
      bfsAux pn pn.bfsFuel [pn.initial_marking] {pn.initial_marking}
        [pn.initial_marking] = (v', [], r') ∧
      (∀ k, bfsAux pn (pn.bfsFuel + k) [pn.initial_marking]
        {pn.initial_marking} [pn.initial_marking] = (v', [], r')) ∧
      r'.Nodup ∧
      (∀ x, x ∈ r' ↔ x ∈ v') ∧
      (∀ x ∈ v', Reaches pn x) ∧
      (∀ x, Reaches pn x → x ∈ v') := by
  have hpost : ∀ t ∈ pn.transitions, pn.postset t ⊆ pn.boundSet := by
    intro t ht
    exact (Finset.subset_biUnion_of_mem pn.postset ht).trans
      Finset.subset_union_right
  have hinitU : pn.initial_marking ⊆ pn.boundSet := Finset.subset_union_left
  obtain ⟨v', r', hrun, hstab, hsub, hnod, hrv, hsound, hclosed⟩ :=
    bfsAux_spec pn pn.boundSet hpost pn.bfsFuel [pn.initial_marking]
      {pn.initial_marking} [pn.initial_marking]
      (by
        intro x hx
        rw [Finset.mem_singleton] at hx
        subst hx
        exact hinitU)
      (by intro x hx; simpa using hx)
      (by simp)
      (by intro x; simp)
      (by
        intro x hx
        rw [Finset.mem_singleton] at hx
        subst hx
        exact Reaches.init)
      (by
        intro x hx
        rw [Finset.mem_singleton] at hx
        subst hx
        exact Or.inl (List.mem_singleton.mpr rfl))
      (by
        have h1 : 1 ≤ 2 ^ pn.boundSet.card := Nat.one_le_two_pow
        simp only [List.length_singleton, Finset.card_singleton, bfsFuel]
        omega)
  have hinit : pn.initial_marking ∈ v' :=
    hsub (Finset.mem_singleton_self _)
  refine ⟨v', r', hrun, hstab, hnod, hrv, hsound, ?_⟩
  intro x hx
  induction hx with
  | init => exact hinit
  | step t _ ht hen ihm => exact hclosed _ ihm t ht hen

/-- Membership in the explicit exploration's output is exactly
reachability by a firing sequence (for a net with at least one place; a
place-free net short-circuits to the empty list). -/
theorem mem_get_reachable_markings (pn : PetriNet) (h : ¬ pn.places = ∅)
    (x : Marking) :
    x ∈ pn.get_reachable_markings ↔ Reaches pn x := by
  obtain ⟨v', r', hrun, _, _, hrv, hsound, hcomplete⟩ := bfs_main pn
  unfold get_reachable_markings get_reachable_markings_fuel
  rw [if_neg h]
  show x ∈ (bfsAux pn pn.bfsFuel [pn.initial_marking] {pn.initial_marking}
    [pn.initial_marking]).2.2 ↔ Reaches pn x
  rw [hrun]
  exact ⟨fun hx => hsound x ((hrv x).mp hx),
    fun hx => (hrv x).mpr (hcomplete x hx)⟩

/-- The explicit exploration never lists a marking twice. -/
theorem get_reachable_markings_nodup (pn : PetriNet) :
    pn.get_reachable_markings.Nodup := by
  by_cases h : pn.places = ∅
  · simp [get_reachable_markings, get_reachable_markings_fuel, h]
  · obtain ⟨v', r', hrun, _, hnod, _, _, _⟩ := bfs_main pn
    unfold get_reachable_markings get_reachable_markings_fuel
    rw [if_neg h]
    show (bfsAux pn pn.bfsFuel [pn.initial_marking] {pn.initial_marking}
      [pn.initial_marking]).2.2.Nodup
    rw [hrun]
    exact hnod

/-- Fuel-insensitivity of the breadth-first exploration at or beyond
`bfsFuel`: the loop has genuinely drained its queue. -/
theorem get_reachable_markings_fuel_stable (pn : PetriNet) (k : Nat) :
    pn.get_reachable_markings_fuel (pn.bfsFuel + k) =
      pn.get_reachable_markings := by
  by_cases h : pn.places = ∅
  · simp [get_reachable_markings, get_reachable_markings_fuel, h]
  · obtain ⟨v', r', hrun, hstab, _, _, _, _⟩ := bfs_main pn
    unfold get_reachable_markings get_reachable_markings_fuel
    rw [if_neg h, if_neg h]
    show (bfsAux pn (pn.bfsFuel + k) [pn.initial_marking]
        {pn.initial_marking} [pn.initial_marking]).2.2 =
      (bfsAux pn pn.bfsFuel [pn.initial_marking] {pn.initial_marking}
        [pn.initial_marking]).2.2
    rw [hrun, hstab k]

/-- Both components of a satisfying assignment of a per-transition relation
are assignments over the places. -/
theorem symT_mem_sub {t : String} {X Y : Marking} (h : (X, Y) ∈ pn.symT t) :
    X ⊆ pn.places ∧ Y ⊆ pn.places := by
  unfold symT at h
  rw [Finset.mem_filter] at h
  have := h.1
  rw [Finset.mem_product] at this
  exact ⟨Finset.mem_powerset.mp this.1, Finset.mem_powerset.mp this.2⟩

/-- Characterisation of the per-transition relation: when preset and
postset consist of places, its satisfying assignments are exactly the pairs
(current marking enabling the transition, its firing successor). -/
theorem mem_symT {t : String} (hpre : pn.preset t ⊆ pn.places)
    (hpost : pn.postset t ⊆ pn.places) (X Y : Marking) :
    (X, Y) ∈ pn.symT t ↔
      X ⊆ pn.places ∧ pn.preset t ⊆ X ∧ Y = pn.fireSet t X := by
  unfold symT
  rw [Finset.mem_filter, Finset.mem_product, Finset.mem_powerset,
    Finset.mem_powerset]
  constructor
  · rintro ⟨⟨hX, hY⟩, hguard, hconstr⟩
    have hguard' : pn.preset t ⊆ X := fun p hp => hguard p hp
    refine ⟨hX, hguard', ?_⟩
    ext p
    simp only [fireSet, Finset.mem_union, Finset.mem_sdiff]
    by_cases hpl : p ∈ pn.places
    · obtain ⟨h1, h2, h3, h4⟩ := hconstr p hpl
      by_cases hp1 : p ∈ pn.preset t <;> by_cases hp2 : p ∈ pn.postset t
      · have hx : p ∈ X := hguard' hp1
        have hiff := h1 ⟨hp1, hp2⟩
        exact ⟨fun _ => Or.inr hp2, fun _ => hiff.mp hx⟩
      · have hnY := h2 ⟨hp1, hp2⟩
        exact ⟨fun hpY => absurd hpY hnY,
          fun hor => hor.elim (fun hx => absurd hp1 hx.2)
            (fun hp => absurd hp hp2)⟩
      · have hpY := h3 ⟨hp1, hp2⟩
        exact ⟨fun _ => Or.inr hp2, fun _ => hpY⟩
      · have hiff := h4 ⟨hp1, hp2⟩
        exact ⟨fun hpY => Or.inl ⟨hiff.mpr hpY, hp1⟩,
          fun hor => hor.elim (fun hx => hiff.mp hx.1)
            (fun hp => absurd hp hp2)⟩
    · have hpY : p ∉ Y := fun hp => hpl (hY hp)
      have hpX : p ∉ X := fun hp => hpl (hX hp)
      have hppost : p ∉ pn.postset t := fun hp => hpl (hpost hp)
      exact ⟨fun hp => absurd hp hpY,
        fun hor => hor.elim (fun hx => absurd hx.1 hpX)
          (fun hp => absurd hp hppost)⟩
  · rintro ⟨hX, hguard, rfl⟩
    have hY : pn.fireSet t X ⊆ pn.places := fireSet_subset hX hpost
    refine ⟨⟨hX, hY⟩, fun p hp => hguard hp, ?_⟩
    intro p _
    simp only [fireSet, Finset.mem_union, Finset.mem_sdiff]
    refine ⟨?_, ?_, ?_, ?_⟩
    · rintro ⟨hp1, hp2⟩
      exact ⟨fun _ => Or.inr hp2, fun _ => hguard hp1⟩
    · rintro ⟨hp1, hp2⟩
      rintro (⟨_, hnp⟩ | hp)
      · exact hnp hp1
      · exact hp2 hp
    · rintro ⟨_, hp2⟩
      exact Or.inr hp2
    · rintro ⟨hp1, hp2⟩
      exact ⟨fun hx => Or.inl ⟨hx, hp1⟩,
        fun h => h.elim (fun hx => hx.1) (fun hp => absurd hp hp2)⟩

theorem mem_foldl_union {α β : Type} [DecidableEq β] (f : α → Finset β) :
    ∀ (l : List α) (acc : Finset β) (x : β),
    x ∈ l.foldl (fun a t => a ∪ f t) acc ↔ x ∈ acc ∨ ∃ t ∈ l, x ∈ f t := by
  intro l
  induction l with
  | nil => simp
  | cons t ts ih =>
    intro acc x
    rw [List.foldl_cons, ih, Finset.mem_union]
    constructor
    · rintro ((h | h) | ⟨t', ht', h⟩)
      · exact Or.inl h
      · exact Or.inr ⟨t, List.mem_cons_self t ts, h⟩
      · exact Or.inr ⟨t', List.mem_cons_of_mem t ht', h⟩
    · rintro (h | ⟨t', ht', h⟩)
      · exact Or.inl (Or.inl h)
      · rcases List.mem_cons.mp ht' with rfl | ht'
        · exact Or.inl (Or.inr h)
        · exact Or.inr ⟨t', ht', h⟩

theorem mem_symTGlobal {X Y : Marking} :
    (X, Y) ∈ pn.symTGlobal ↔ ∃ t ∈ pn.transitions, (X, Y) ∈ pn.symT t := by
  unfold symTGlobal
  rw [mem_foldl_union]
  simp only [Finset.not_mem_empty, false_or]
  constructor
  · rintro ⟨t, ht, h⟩
    exact ⟨t, mem_sortedTransitions.mp ht, h⟩
  · rintro ⟨t, ht, h⟩
    exact ⟨t, mem_sortedTransitions.mpr ht, h⟩

theorem mem_symImage {T : Finset (Marking × Marking)} {R : Finset Marking}
    {Y : Marking} :
    Y ∈ symImage T R ↔ ∃ X ∈ R, (X, Y) ∈ T := by
  unfold symImage
  simp only [Finset.mem_image, Finset.mem_filter]
  constructor
  · rintro ⟨⟨X', Y'⟩, ⟨hT, hR⟩, rfl⟩
    exact ⟨X', hR, hT⟩
  · rintro ⟨X, hR, hT⟩
    exact ⟨(X, Y), ⟨hT, hR⟩, rfl⟩

/-- The fixpoint loop, run with fuel at least `2 ^ |places| + 1 − |R|`:
the result contains `R`, stays inside the assignments over the places,
preserves any invariant preserved by the transition relation, and is closed
under the image operation (the loop really reached its fixpoint). -/
theorem symFixAux_spec (P : Finset String) (T : Finset (Marking × Marking))
    (hTsub : ∀ XY ∈ T, XY.2 ⊆ P)
    (I : Marking → Prop) (hI : ∀ X Y, I X → (X, Y) ∈ T → I Y) :
    ∀ (fuel : Nat) (R : Finset Marking), R ⊆ P.powerset → (∀ x ∈ R, I x) →
    2 ^ P.card + 1 ≤ fuel + R.card →
    R ⊆ symFixAux T fuel R ∧
    symFixAux T fuel R ⊆ P.powerset ∧
    (∀ x ∈ symFixAux T fuel R, I x) ∧
    symImage T (symFixAux T fuel R) ⊆ symFixAux T fuel R := by
  intro fuel
  induction fuel with
  | zero =>
    intro R hRP hRI hfuel
    exfalso
    have hcard : R.card ≤ 2 ^ P.card := by
      have := Finset.card_le_card hRP
      simpa [Finset.card_powerset] using this
    omega
  | succ fuel ih =>
    intro R hRP hRI hfuel
    by_cases hnew : symImage T R \ R = ∅
    · have heq : symFixAux T (fuel + 1) R = R := by
        simp [symFixAux, hnew]
      rw [heq]
      exact ⟨Finset.Subset.refl R, hRP, hRI,
        Finset.sdiff_eq_empty_iff_subset.mp hnew⟩
    · have heq : symFixAux T (fuel + 1) R =
          symFixAux T fuel (R ∪ (symImage T R \ R)) := by
        simp [symFixAux, hnew]
      have himg : ∀ x ∈ symImage T R, x ⊆ P ∧ I x := by
        intro x hx
        obtain ⟨X, hXR, hXT⟩ := mem_symImage.mp hx
        exact ⟨hTsub (X, x) hXT, hI X x (hRI X hXR) hXT⟩
      have hRP₁ : R ∪ (symImage T R \ R) ⊆ P.powerset := by
        intro x hx
        rcases Finset.mem_union.mp hx with hx | hx
        · exact hRP hx
        · exact Finset.mem_powerset.mpr (himg x (Finset.mem_sdiff.mp hx).1).1
      have hRI₁ : ∀ x ∈ R ∪ (symImage T R \ R), I x := by
        intro x hx
        rcases Finset.mem_union.mp hx with hx | hx
        · exact hRI x hx
        · exact (himg x (Finset.mem_sdiff.mp hx).1).2
      have hfuel₁ : 2 ^ P.card + 1 ≤ fuel + (R ∪ (symImage T R \ R)).card := by
        have hdis : Disjoint R (symImage T R \ R) := Finset.disjoint_sdiff
        rw [Finset.card_union_of_disjoint hdis]
        have hpos : 0 < (symImage T R \ R).card :=
          Finset.card_pos.mpr (Finset.nonempty_iff_ne_empty.mpr hnew)
        omega
      obtain ⟨h1, h2, h3, h4⟩ := ih (R ∪ (symImage T R \ R)) hRP₁ hRI₁ hfuel₁
      rw [heq]
      exact ⟨Finset.Subset.trans Finset.subset_union_left h1, h2, h3, h4⟩

/-- Under the parser's invariants the initial-set function has exactly one
satisfying assignment: the initial marking itself. -/
theorem symInit_eq (hwf : WF pn) : pn.symInit = {pn.initial_marking} := by
  unfold symInit
  congr 1
  ext p
  rw [Finset.mem_filter]
  exact ⟨fun h => h.2, fun h => ⟨hwf.2.2 h, h⟩⟩

/-- The satisfying assignments of the reachable-set function computed by
the symbolic fixpoint are exactly the reachable markings (for a
well-formed net with at least one place). -/
theorem mem_symbolicR (hwf : WF pn) (h : ¬ pn.places = ∅) (x : Marking) :
    x ∈ pn.symbolicR ↔ Reaches pn x := by
  unfold symbolicR
  rw [if_neg h]
  have hTsub : ∀ XY ∈ pn.symTGlobal, XY.2 ⊆ pn.places := by
    rintro ⟨X, Y⟩ hXY
    exact (symT_mem_sub (mem_symTGlobal.mp hXY).choose_spec.2).2
  have hI : ∀ X Y, Reaches pn X → (X, Y) ∈ pn.symTGlobal → Reaches pn Y := by
    intro X Y hX hXY
    obtain ⟨t, ht, hXYt⟩ := mem_symTGlobal.mp hXY
    obtain ⟨hXp, hpre, rfl⟩ :=
      (mem_symT (hwf.1 t ht) (hwf.2.1 t ht) X Y).mp hXYt
    exact Reaches.step t hX ht (is_enabled_iff.mpr hpre)
  have hR0P : pn.symInit ⊆ pn.places.powerset := by
    intro y hy
    rw [symInit, Finset.mem_singleton] at hy
    subst hy
    exact Finset.mem_powerset.mpr (Finset.filter_subset _ _)
  have hR0I : ∀ y ∈ pn.symInit, Reaches pn y := by
    intro y hy
    rw [symInit_eq hwf, Finset.mem_singleton] at hy
    subst hy
    exact Reaches.init
  have hfuel : 2 ^ pn.places.card + 1 ≤ pn.symFuel + pn.symInit.card := by
    unfold symFuel
    omega
  obtain ⟨hsub, hpow, hIall, hclosed⟩ :=
    symFixAux_spec pn.places pn.symTGlobal hTsub (Reaches pn) hI
      pn.symFuel pn.symInit hR0P hR0I hfuel
  constructor
  · exact fun hx => hIall x hx
  · intro hx
    induction hx with
    | init =>
      exact hsub (by rw [symInit_eq hwf]; exact Finset.mem_singleton_self _)
    | step t hm ht hen ihm =>
      rename_i m
      apply hclosed
      refine mem_symImage.mpr ⟨m, ihm, mem_symTGlobal.mpr ⟨t, ht, ?_⟩⟩
      exact (mem_symT (hwf.1 t ht) (hwf.2.1 t ht) m _).mpr
        ⟨Finset.mem_powerset.mp (hpow ihm), is_enabled_iff.mp hen, rfl⟩

end PetriNet

/-- The bruteforce scan's loop, started from a candidate best pair, returns
a pair (marking, its value) whose value is the greatest over the candidate
and the scanned markings, and whose marking is the candidate or scanned. -/
theorem bruteFold_spec (w : String → Int) :
    ∀ (l : List Marking) (bm : Marking),
    ∃ bm' : Marking,
      l.foldl (bruteStep w) (some (bm, markingValue w bm)) =
        some (bm', markingValue w bm') ∧
      (bm' = bm ∨ bm' ∈ l) ∧
      markingValue w bm ≤ markingValue w bm' ∧
      ∀ m ∈ l, markingValue w m ≤ markingValue w bm' := by
  intro l
  induction l with
  | nil =>
    intro bm
    exact ⟨bm, rfl, Or.inl rfl, le_refl _, by simp⟩
  | cons m tl ih =>
    intro bm
    rw [List.foldl_cons]
    by_cases hlt : markingValue w bm < markingValue w m
    · have hstep : bruteStep w (some (bm, markingValue w bm)) m =
          some (m, markingValue w m) := by
        simp [bruteStep, hlt]
      rw [hstep]
      obtain ⟨bm', h1, h2, h3, h4⟩ := ih m
      refine ⟨bm', h1, ?_, le_trans (le_of_lt hlt) h3, ?_⟩
      · rcases h2 with rfl | h2
        · exact Or.inr (List.mem_cons_self _ _)
        · exact Or.inr (List.mem_cons_of_mem _ h2)
      · intro x hx
        rcases List.mem_cons.mp hx with rfl | hx
        · exact h3
        · exact h4 x hx
    · have hstep : bruteStep w (some (bm, markingValue w bm)) m =
          some (bm, markingValue w bm) := by
        simp [bruteStep, hlt]
      rw [hstep]
      obtain ⟨bm', h1, h2, h3, h4⟩ := ih bm
      refine ⟨bm', h1, Or.imp_right (List.mem_cons_of_mem m) h2, h3, ?_⟩
      intro x hx
      rcases List.mem_cons.mp hx with rfl | hx
      · exact le_trans (not_lt.mp hlt) h3
      · exact h4 x hx

/-- The direct scan, on a net with at least one reachable marking, returns
a reachable marking of maximal value together with that value. -/
theorem optimize_bruteforce_spec (pn : PetriNet) (w : String → Int)
    (h : ¬ pn.get_reachable_markings = []) :
    ∃ bm, optimize_reachable_markings_bruteforce pn w =
        (some bm, markingValue w bm) ∧
      bm ∈ pn.get_reachable_markings ∧
      ∀ m ∈ pn.get_reachable_markings,
        markingValue w m ≤ markingValue w bm := by
  obtain ⟨m0, tl, hl⟩ : ∃ m0 tl, pn.get_reachable_markings = m0 :: tl := by
    cases hc : pn.get_reachable_markings with
    | nil => exact absurd hc h
    | cons a b => exact ⟨a, b, rfl⟩
  obtain ⟨bm, h1, h2, h3, h4⟩ := bruteFold_spec w tl m0
  refine ⟨bm, ?_, ?_, ?_⟩
  · unfold optimize_reachable_markings_bruteforce
    rw [if_neg h, hl, List.foldl_cons]
    have hstep : bruteStep w none m0 = some (m0, markingValue w m0) := rfl
    rw [hstep, h1]
  · rw [hl]
    rcases h2 with rfl | h2
    · exact List.mem_cons_self _ _
    · exact List.mem_cons_of_mem _ h2
  · intro x hx
    rw [hl] at hx
    rcases List.mem_cons.mp hx with rfl | hx
    · exact h3
    · exact h4 x hx

/-- The selection program, on a net with at least one reachable marking,
returns a reachable marking of maximal value together with that value. -/
theorem optimize_ilp_spec (pn : PetriNet) (w : String → Int)
    (h : ¬ pn.get_reachable_markings = []) :
    ∃ bm, optimize_reachable_markings_ilp pn w =
        (some bm, markingValue w bm) ∧
      bm ∈ pn.get_reachable_markings ∧
      ∀ m ∈ pn.get_reachable_markings,
        markingValue w m ≤ markingValue w bm := by
  have hmapne : ¬ pn.get_reachable_markings.map (markingValue w) = [] := by
    simpa using h
  have hnn : (pn.get_reachable_markings.map (markingValue w)).maximum ≠ none :=
    fun hc => hmapne (List.maximum_eq_none.mp hc)
  obtain ⟨M, hM⟩ := Option.ne_none_iff_exists'.mp hnn
  have hMmem : M ∈ pn.get_reachable_markings.map (markingValue w) :=
    List.maximum_mem hM
  have hle : ∀ m ∈ pn.get_reachable_markings, markingValue w m ≤ M := by
    intro m hm
    exact List.le_maximum_of_mem (List.mem_map_of_mem _ hm) hM
  have hunbot :
      ((pn.get_reachable_markings.map (markingValue w)).maximum).unbot' 0 = M := by
    rw [hM]
    rfl
  cases hfind : pn.get_reachable_markings.find?
      (fun m => markingValue w m =
        ((pn.get_reachable_markings.map (markingValue w)).maximum).unbot' 0) with
  | none =>
    exfalso
    obtain ⟨bm0, hbm0mem, hbm0val⟩ := List.mem_map.mp hMmem
    have hnone := List.find?_eq_none.mp hfind bm0 hbm0mem
    apply hnone
    rw [hunbot]
    simp [hbm0val]
  | some bm =>
    have hp := List.find?_some hfind
    have hmem := List.mem_of_find?_eq_some hfind
    rw [hunbot] at hp
    have hval : markingValue w bm = M := by
      simpa using hp
    refine ⟨bm, ?_, hmem, ?_⟩
    · unfold optimize_reachable_markings_ilp
      rw [if_neg h, hfind]
      simp only [hunbot, hval]
    · intro m hm
      rw [hval]
      exact hle m hm

/-- Construction through the builder methods keeps every transition's
postset inside the places, and keeps place and transition identifiers
disjoint. -/
theorem Built.postset_sub {pn : PetriNet} (hb : Built pn) :
    (∀ t ∈ pn.transitions, pn.postset t ⊆ pn.places) ∧
    Disjoint pn.places pn.transitions := by
  induction hb with
  | empty =>
    constructor
    · intro t ht
      simp [PetriNet.empty] at ht
    · simp [PetriNet.empty]
  | place pn0 pn' p hb hok ih =>
    unfold PetriNet.add_place at hok
    split_ifs at hok with hdup
    injection hok with heq
    subst heq
    push_neg at hdup
    obtain ⟨hp1, hp2⟩ := hdup
    constructor
    · intro t ht x hx
      have ht' : t ∈ pn0.transitions := ht
      have htne : ¬ t = p := fun hc => hp2 (hc ▸ ht')
      have hx' : x ∈ (if t = p then (∅ : Finset String) else pn0.postset t) := hx
      rw [if_neg htne] at hx'
      show x ∈ insert p pn0.places
      exact Finset.mem_insert_of_mem (ih.1 t ht' hx')
    · show Disjoint (insert p pn0.places) pn0.transitions
      exact Finset.disjoint_insert_left.mpr ⟨hp2, ih.2⟩
  | transition pn0 pn' t0 hb hok ih =>
    unfold PetriNet.add_transition at hok
    split_ifs at hok with hdup
    injection hok with heq
    subst heq
    push_neg at hdup
    obtain ⟨hp1, hp2⟩ := hdup
    constructor
    · intro t ht x hx
      have ht' : t ∈ insert t0 pn0.transitions := ht
      by_cases hte : t = t0
      · subst hte
        have hx' : x ∈ (if t = t then (∅ : Finset String) else pn0.postset t) := hx
        rw [if_pos rfl] at hx'
        exact absurd hx' (Finset.not_mem_empty x)
      · have hx' : x ∈ (if t = t0 then (∅ : Finset String) else pn0.postset t) := hx
        rw [if_neg hte] at hx'
        exact ih.1 t (Finset.mem_of_mem_insert_of_ne ht' hte) hx'
    · show Disjoint pn0.places (insert t0 pn0.transitions)
      exact Finset.disjoint_insert_right.mpr ⟨hp2, ih.2⟩
  | arc pn0 pn' src tgt hb hok ih =>
    unfold PetriNet.add_arc at hok
    split_ifs at hok with h1 h2 h3
    injection hok with heq
    subst heq
    constructor
    · intro t ht x hx
      have ht' : t ∈ pn0.transitions := ht
      show x ∈ pn0.places
      by_cases hts : t = src
      · subst hts
        have htgtT : tgt ∉ pn0.transitions := fun hc => h3 (Or.inr ⟨ht', hc⟩)
        have htgtP : tgt ∈ pn0.places := by
          by_contra hc
          exact h2 ⟨hc, htgtT⟩
        have hx' : x ∈ (if t = t then insert tgt (pn0.postset t)
            else pn0.postset t) := hx
        rw [if_pos rfl] at hx'
        rcases Finset.mem_insert.mp hx' with rfl | hx'
        · exact htgtP
        · exact ih.1 t ht' hx'
      · have hx' : x ∈ (if t = src then insert tgt (pn0.postset t)
            else pn0.postset t) := hx
        rw [if_neg hts] at hx'
        exact ih.1 t ht' hx'
    · exact ih.2
  | init pn0 p k hb ih =>
    unfold PetriNet.set_initial_marking
    split_ifs
    · exact ih
    · exact ih

/-! ## Concrete nets used as witnesses and failing inputs -/

/-- The single-place loop net `P1 ⇄ T1` (arcs `P1→T1` and `T1→P1`), initial
marking `{P1}`: the self-loop scenario of the specification, with the
preset/postset maps exactly as the builder methods derive them from the two
arcs. -/
def loopNet : PetriNet :=
  { name := "loop"
    places := {"P1"}
    transitions := {"T1"}
    arcs := [("P1", "T1"), ("T1", "P1")]
    initial_marking := {"P1"}
    preset := fun q => if q = "T1" then {"P1"} else if q = "P1" then {"T1"} else ∅
    postset := fun q => if q = "T1" then {"P1"} else if q = "P1" then {"T1"} else ∅ }

/-- A net with a transition of empty preset: one place `Q`, transitions
`T0` (no arcs at all, hence empty preset and postset) and `T1` (arcs
`Q→T1`, `T1→Q`), empty initial marking.  `T0` is enabled in every marking,
so no deadlock exists; only `T1` contributes a deadlock constraint to the
integer program. -/
def cNet : PetriNet :=
  { name := "empty-preset"
    places := {"Q"}
    transitions := {"T0", "T1"}
    arcs := [("Q", "T1"), ("T1", "Q")]
    initial_marking := ∅
    preset := fun q => if q = "T1" then {"Q"} else if q = "Q" then {"T1"} else ∅
    postset := fun q => if q = "T1" then {"Q"} else if q = "Q" then {"T1"} else ∅ }

/-- A well-formed net whose reachable-set function does not depend on every
place: places `P`, `Q`; one transition `T1` with arcs `P→T1`, `T1→P` and
`T1→Q` (preset `{P}`, postset `{P, Q}`), initial marking `{P}`.  Its
reachable markings are `{P}` and `{P, Q}`, so the reachable-set function is
`x_P`: membership is insensitive to `Q`, and the support of the function
omits `Q`. -/
def rNet : PetriNet :=
  { name := "dontcare"
    places := {"P", "Q"}
    transitions := {"T1"}
    arcs := [("P", "T1"), ("T1", "P"), ("T1", "Q")]
    initial_marking := {"P"}
    preset := fun q =>
      if q = "T1" then {"P"} else if q = "P" then {"T1"}
      else if q = "Q" then {"T1"} else ∅
    postset := fun q =>
      if q = "T1" then {"P", "Q"} else if q = "P" then {"T1"} else ∅ }

/-- The loop net `P1 ⇄ T1` built through the builder methods themselves. -/
def builtNet : PetriNet :=
  ((((PetriNet.empty.add_place "P1").bind
      (fun n => n.add_transition "T1")).bind
    (fun n => n.add_arc "P1" "T1")).bind
    (fun n => n.add_arc "T1" "P1")).toOption.getD PetriNet.empty

theorem builtNet_built : Built builtNet :=
  Built.arc _ _ "T1" "P1"
    (Built.arc _ _ "P1" "T1"
      (Built.transition _ _ "T1"
        (Built.place _ _ "P1" Built.empty rfl) rfl) rfl) rfl

/-! ## The claimed properties -/

/-- Every reachable marking of a net satisfying the data-model invariants
consists of places. -/
theorem Reaches.subset_places {pn : PetriNet} (hwf : WF pn) {m : Marking}
    (h : Reaches pn m) : m ⊆ pn.places := by
  induction h with
  | init => exact hwf.2.2
  | step t _ ht _ ih => exact PetriNet.fireSet_subset ih (hwf.2.1 t ht)

/-- C1 (counterexample): on `rNet` the explicit exploration returns two
markings while the symbolic exploration's returned count is 1, because the
reachable-set function does not depend on the place `Q` and `bdd.count`
counts assignments over the support only. -/
theorem explicit_symbolic_count_mismatch :
    WF rNet ∧
    rNet.get_reachable_markings.length = 2 ∧
    rNet.symCount = 1 ∧
    rNet.symSupport = {"P"} :=
  ⟨by decide, by decide, by decide, by decide⟩

/-- C1 (amended): for every net satisfying the data-model invariants whose
final reachable-set function depends on every place variable (its support
is all the places), the number of markings in the sequence returned by the
explicit breadth-first exploration equals the satisfying-assignment count
returned by the symbolic exploration.  (In general the returned count is
the assignment count over the support only, and is smaller by a factor of
two for each place the reachable set is insensitive to.) -/
theorem explicit_count_eq_symbolic_count (pn : PetriNet) (hwf : WF pn)
    (hsupp : pn.symSupport = pn.places) :
    pn.get_reachable_markings.length = pn.symCount := by
  by_cases h : pn.places = ∅
  · have h1 : pn.get_reachable_markings = [] := by
      simp [PetriNet.get_reachable_markings,
        PetriNet.get_reachable_markings_fuel, h]
    have h2 : pn.symbolicR = ∅ := by
      simp [PetriNet.symbolicR, h]
    rw [h1, PetriNet.symCount, h2]
    rfl
  · have himg : pn.symbolicR.image (fun X => X ∩ pn.symSupport) =
        pn.symbolicR := by
      rw [hsupp]
      have heqon : ∀ X ∈ pn.symbolicR, X ∩ pn.places = X := by
        intro X hX
        exact Finset.inter_eq_left.mpr
          (Reaches.subset_places hwf ((PetriNet.mem_symbolicR hwf h X).mp hX))
      calc pn.symbolicR.image (fun X => X ∩ pn.places)
          = pn.symbolicR.image id :=
            Finset.image_congr (fun X hX => heqon X hX)
        _ = pn.symbolicR := Finset.image_id
    have heq : pn.get_reachable_markings.toFinset = pn.symbolicR := by
      ext x
      rw [List.mem_toFinset, pn.mem_get_reachable_markings h x,
        PetriNet.mem_symbolicR hwf h x]
    rw [PetriNet.symCount, himg, ← heq,
      List.toFinset_card_of_nodup pn.get_reachable_markings_nodup]

theorem explicit_count_eq_symbolic_count_witness :
    WF loopNet ∧ loopNet.symSupport = loopNet.places ∧
    loopNet.get_reachable_markings.length = loopNet.symCount :=
  ⟨by decide, by decide,
    explicit_count_eq_symbolic_count loopNet (by decide) (by decide)⟩

/-- C2 (failing input): on the net `cNet`, whose transition `T0` has an
empty preset, the explicit strategy finds no deadlock (`T0` is always
enabled), while the ILP-over-symbolic strategy — which skips empty-preset
transitions when emitting deadlock constraints — returns the marking `∅`.
The two strategies disagree on the existence verdict. -/
theorem deadlock_strategies_disagree :
    find_deadlock_explicit cNet = none ∧
    find_deadlock_ilp_bdd cNet cNet.symbolicR = some ∅ ∧
    "T0" ∈ cNet.transitions ∧ cNet.preset "T0" = ∅ :=
  ⟨by decide, by decide, by decide, by decide⟩

/-- C3 (failing input): with method `bdd`, `detect_deadlock` on `cNet`
returns the marking `∅`, which is explicitly reachable but enables the
empty-preset transition `T0` — so the returned marking does not have
"no transition enabled". -/
theorem detect_deadlock_bdd_unsound :
    detect_deadlock cNet Method.bdd = some ∅ ∧
    (∅ : Marking) ∈ cNet.get_reachable_markings ∧
    "T0" ∈ cNet.transitions ∧ cNet.is_enabled "T0" ∅ = true :=
  ⟨by decide, by decide, by decide, by decide⟩

/-- C4: `fire(t, marking)` raises the illegal-firing error exactly when
`is_enabled(t, marking)` is false, and when enabled it returns exactly
`(marking \ preset(t)) ∪ postset(t)` without raising. -/
theorem fire_error_iff_not_enabled (pn : PetriNet) (t : String) (m : Marking) :
    ((∃ e, pn.fire t m = .error e) ↔ ¬ pn.is_enabled t m = true) ∧
    (pn.is_enabled t m = true →
      pn.fire t m = .ok ((m \ pn.preset t) ∪ pn.postset t)) := by
  by_cases h : pn.is_enabled t m = true
  · refine ⟨⟨?_, fun hn => absurd h hn⟩, fun _ => ?_⟩
    · rintro ⟨e, he⟩
      rw [PetriNet.fire, if_pos h] at he
      exact Except.noConfusion he
    · rw [PetriNet.fire, if_pos h]
      rfl
  · refine ⟨⟨fun _ => h, fun _ => ?_⟩, fun hc => absurd hc h⟩
    exact ⟨"Transition " ++ t ++ " is not enabled!",
      by rw [PetriNet.fire, if_neg h]⟩

theorem fire_error_iff_not_enabled_witness :
    loopNet.is_enabled "T1" {"P1"} = true ∧
    loopNet.fire "T1" {"P1"} =
      .ok ((({"P1"} : Marking) \ loopNet.preset "T1") ∪ loopNet.postset "T1") ∧
    ¬ loopNet.is_enabled "T1" (∅ : Marking) = true ∧
    (∃ e, loopNet.fire "T1" (∅ : Marking) = .error e) :=
  ⟨by decide, (fire_error_iff_not_enabled loopNet "T1" {"P1"}).2 (by decide),
    by decide, (fire_error_iff_not_enabled loopNet "T1" ∅).1.mpr (by decide)⟩

/-- C5: the sequence returned by `get_reachable_markings` contains no
marking twice, and every marking in it is reachable from the initial
marking by a firing sequence.  (The production itself is deterministic:
the exploration is a pure function of the net, dequeuing breadth-first and
trying transitions in sorted identifier order.) -/
theorem reachable_markings_nodup_and_sound (pn : PetriNet) :
    pn.get_reachable_markings.Nodup ∧
    ∀ m ∈ pn.get_reachable_markings, Reaches pn m := by
  refine ⟨pn.get_reachable_markings_nodup, ?_⟩
  intro m hm
  by_cases h : pn.places = ∅
  · rw [PetriNet.get_reachable_markings,
      PetriNet.get_reachable_markings_fuel, if_pos h] at hm
    simp at hm
  · exact (pn.mem_get_reachable_markings h m).mp hm

theorem reachable_markings_nodup_and_sound_witness :
    loopNet.get_reachable_markings.Nodup ∧ Reaches loopNet {"P1"} :=
  ⟨(reachable_markings_nodup_and_sound loopNet).1,
    (reachable_markings_nodup_and_sound loopNet).2 {"P1"} (by decide)⟩

/-- C6: in the symbolic per-transition relation, a place in both preset and
postset is constrained as "unchanged" (its value in any satisfying pair is
the same before and after), never as a contradiction; consequently the
relation of a transition whose preset and postset consist of places is
satisfiable, and the single-place loop net `P1 ⇄ T1` with initial `{P1}`
has symbolic reachable count 1. -/
theorem selfloop_unchanged_and_satisfiable :
    (∀ (pn : PetriNet) (t : String) (X Y : Marking) (p : String),
        (X, Y) ∈ pn.symT t → p ∈ pn.places → p ∈ pn.preset t →
        p ∈ pn.postset t → (p ∈ X ↔ p ∈ Y)) ∧
    (∀ (pn : PetriNet) (t : String), pn.preset t ⊆ pn.places →
        pn.postset t ⊆ pn.places → (pn.symT t).Nonempty) ∧
    loopNet.symCount = 1 := by
  refine ⟨?_, ?_, by decide⟩
  · intro pn t X Y p hXY hp hp1 hp2
    unfold PetriNet.symT at hXY
    rw [Finset.mem_filter] at hXY
    exact (hXY.2.2 p hp).1 ⟨hp1, hp2⟩
  · intro pn t hpre hpost
    exact ⟨(pn.preset t, pn.fireSet t (pn.preset t)),
      (PetriNet.mem_symT hpre hpost (pn.preset t)
        (pn.fireSet t (pn.preset t))).mpr
        ⟨hpre, Finset.Subset.refl _, rfl⟩⟩

theorem selfloop_unchanged_and_satisfiable_witness :
    ((({"P1"} : Marking), ({"P1"} : Marking)) ∈ loopNet.symT "T1") ∧
    ("P1" ∈ ({"P1"} : Marking) ↔ "P1" ∈ ({"P1"} : Marking)) ∧
    (loopNet.symT "T1").Nonempty ∧
    loopNet.symCount = 1 :=
  ⟨by decide,
    selfloop_unchanged_and_satisfiable.1 loopNet "T1" {"P1"} {"P1"} "P1"
      (by decide) (by decide) (by decide) (by decide),
    selfloop_unchanged_and_satisfiable.2.1 loopNet "T1" (by decide) (by decide),
    selfloop_unchanged_and_satisfiable.2.2⟩

/-- C7: the direct scan and the one-hot selection program return the same
optimal value, namely the greatest weight-sum attained by a reachable
marking (an attained upper bound of the values over the reachable set). -/
theorem optimize_methods_agree (pn : PetriNet) (w : String → Int) :
    (optimize_reachable_markings_bruteforce pn w).2 =
      (optimize_reachable_markings_ilp pn w).2 ∧
    (∀ m ∈ pn.get_reachable_markings,
      markingValue w m ≤ (optimize_reachable_markings_bruteforce pn w).2) ∧
    (¬ pn.get_reachable_markings = [] →
      ∃ m ∈ pn.get_reachable_markings,
        markingValue w m = (optimize_reachable_markings_bruteforce pn w).2) := by
  by_cases h : pn.get_reachable_markings = []
  · refine ⟨?_, ?_, fun hne => absurd h hne⟩
    · simp [optimize_reachable_markings_bruteforce,
        optimize_reachable_markings_ilp, h]
    · intro m hm
      rw [h] at hm
      simp at hm
  · obtain ⟨bm, hb1, hb2, hb3⟩ := optimize_bruteforce_spec pn w h
    obtain ⟨bi, hi1, hi2, hi3⟩ := optimize_ilp_spec pn w h
    have hval : markingValue w bm = markingValue w bi :=
      le_antisymm (hi3 bm hb2) (hb3 bi hi2)
    rw [hb1, hi1]
    exact ⟨by simpa using hval,
      fun m hm => hb3 m hm,
      fun _ => ⟨bm, hb2, rfl⟩⟩

theorem optimize_methods_agree_witness :
    ((optimize_reachable_markings_bruteforce loopNet (fun _ => 1)).2 =
      (optimize_reachable_markings_ilp loopNet (fun _ => 1)).2) ∧
    markingValue (fun _ => 1) {"P1"} ≤
      (optimize_reachable_markings_bruteforce loopNet (fun _ => 1)).2 ∧
    (∃ m ∈ loopNet.get_reachable_markings,
      markingValue (fun _ => 1) m =
        (optimize_reachable_markings_bruteforce loopNet (fun _ => 1)).2) :=
  ⟨(optimize_methods_agree loopNet (fun _ => 1)).1,
    (optimize_methods_agree loopNet (fun _ => 1)).2.1 {"P1"} (by decide),
    (optimize_methods_agree loopNet (fun _ => 1)).2.2 (by decide)⟩

/-- C8: on a net built through the builder methods, firing a transition of
the net that is enabled in a marking consisting of places returns (without
raising) a marking that again consists of places. -/
theorem fire_preserves_place_subset (pn : PetriNet) (hb : Built pn)
    (m : Marking) (hm : m ⊆ pn.places) (t : String) (ht : t ∈ pn.transitions)
    (hen : pn.is_enabled t m = true) :
    ∃ m', pn.fire t m = .ok m' ∧ m' ⊆ pn.places := by
  refine ⟨pn.fireSet t m, ?_, ?_⟩
  · rw [PetriNet.fire, if_pos hen]
  · exact PetriNet.fireSet_subset hm ((Built.postset_sub hb).1 t ht)

theorem fire_preserves_place_subset_witness :
    Built builtNet ∧ ({"P1"} : Marking) ⊆ builtNet.places ∧
    "T1" ∈ builtNet.transitions ∧
    builtNet.is_enabled "T1" {"P1"} = true ∧
    ∃ m', builtNet.fire "T1" {"P1"} = .ok m' ∧ m' ⊆ builtNet.places :=
  ⟨builtNet_built, by decide, by decide, by decide,
    fire_preserves_place_subset builtNet builtNet_built {"P1"} (by decide)
      "T1" (by decide) (by decide)⟩

/-- C9: the breadth-first exploration terminates — run with any fuel at
least `bfsFuel` (one unit per dequeue, `2 ^ |boundSet|` in total), the loop
has already drained its queue, so the result no longer depends on the
fuel. -/
theorem reachable_markings_fuel_irrelevant (pn : PetriNet) (fuel : Nat)
    (h : pn.bfsFuel ≤ fuel) :
    pn.get_reachable_markings_fuel fuel = pn.get_reachable_markings := by
  obtain ⟨k, rfl⟩ := Nat.exists_eq_add_of_le h
  exact pn.get_reachable_markings_fuel_stable k

theorem reachable_markings_fuel_irrelevant_witness :
    loopNet.bfsFuel ≤ 5 ∧
    loopNet.get_reachable_markings_fuel 5 = loopNet.get_reachable_markings :=
  ⟨by decide, reachable_markings_fuel_irrelevant loopNet 5 (by decide)⟩

/-- C10: for a net with no places, the explicit exploration returns the
empty sequence and the symbolic exploration reports count 0 — the empty
marking is not reported as a reachable state even though it is the initial
marking, and the two representations agree on 0. -/
theorem placefree_net_zero_count (pn : PetriNet) (h : pn.places = ∅) :
    pn.get_reachable_markings = [] ∧ pn.symCount = 0 := by
  constructor
  · simp [PetriNet.get_reachable_markings,
      PetriNet.get_reachable_markings_fuel, h]
  · simp [PetriNet.symCount, PetriNet.symbolicR, h]

theorem placefree_net_zero_count_witness :
    PetriNet.empty.places = ∅ ∧
    PetriNet.empty.get_reachable_markings = [] ∧
    PetriNet.empty.symCount = 0 :=
  ⟨rfl, (placefree_net_zero_count PetriNet.empty rfl).1,
    (placefree_net_zero_count PetriNet.empty rfl).2⟩
